/-
Verification of the signal-alignment / outlier-filtering / evaluation core
of the RealTime-IBI-BP analysis pipeline.

The Python sources are shallowly embedded over exact rationals:
 * a possibly-missing float (NaN / non-finite) is `Option ℚ` (`none` = NaN);
 * numpy / pandas primitives used by the code (linear NaN interpolation,
   `np.arange`, `np.interp` time axes, groupby-mean, population variance)
   are spelled out as executable Lean functions;
 * the scipy Butterworth filter core (`signal.butter` + `signal.filtfilt`)
   is an external collaborator and enters as an abstract parameter
   `flt : List ℚ → Option (List ℚ)` (`none` models the `except` branch).
-/
import Mathlib

namespace RealTimeIBIBP

/-! ### Basic list helpers (numpy-style reductions) -/

/-- Maximum of a list of rationals (`np.max`); 0 on the empty list
(the sources only call it on non-empty data). -/
def listMax : List ℚ → ℚ
  | [] => 0
  | t :: ts => ts.foldl max t

/-- Minimum of a list of rationals (`np.min`); 0 on the empty list. -/
def listMin : List ℚ → ℚ
  | [] => 0
  | t :: ts => ts.foldl min t

/-! ### NaN-aware linear interpolation
`pd.Series.interpolate(method="linear", limit_direction="both")` on a
range-indexed series: interior NaN runs are linearly interpolated between
the nearest valid neighbours, leading/trailing NaNs are filled with the
nearest valid value, and an all-NaN series stays all-NaN. -/

/-- First valid entry of a signal tail whose head sits at absolute index `k`. -/
def firstValidFrom : List (Option ℚ) → ℕ → Option (ℕ × ℚ)
  | [], _ => none
  | some v :: _, k => some (k, v)
  | none :: rest, k => firstValidFrom rest (k + 1)

/-- Last valid entry of a signal prefix whose head sits at absolute index `k`. -/
def lastValidIn : List (Option ℚ) → ℕ → Option (ℕ × ℚ)
  | [], _ => none
  | some v :: rest, k =>
      (match lastValidIn rest (k + 1) with
       | some r => some r
       | none => some (k, v))
  | none :: rest, k => lastValidIn rest (k + 1)

/-- Nearest valid (non-NaN) entry at or before position `i`:
returns its index and value. -/
def prevValid (arr : List (Option ℚ)) (i : ℕ) : Option (ℕ × ℚ) :=
  lastValidIn (arr.take (i + 1)) 0

/-- Nearest valid (non-NaN) entry at or after position `i`:
returns its index and value. -/
def nextValid (arr : List (Option ℚ)) (i : ℕ) : Option (ℕ × ℚ) :=
  firstValidFrom (arr.drop i) i

/-- Value that NaN-interpolation produces at position `i`. -/
def interpAt (arr : List (Option ℚ)) (i : ℕ) : Option ℚ :=
  match arr.getD i none with
  | some v => some v
  | none =>
    match prevValid arr i, nextValid arr i with
    | some lv, some rv =>
        some (lv.2 + (rv.2 - lv.2) * ((i : ℚ) - (lv.1 : ℚ)) / ((rv.1 : ℚ) - (lv.1 : ℚ)))
    | some lv, none => some lv.2
    | none, some rv => some rv.2
    | none, none => none

/-- `series.interpolate(method="linear", limit_direction="both")`. -/
def nanInterp (arr : List (Option ℚ)) : List (Option ℚ) :=
  (List.range arr.length).map (interpAt arr)

/-- Positions of the NaN entries of a signal tail whose head sits at
absolute index `k`. -/
def nanPositionsFrom : List (Option ℚ) → ℕ → List ℕ
  | [], _ => []
  | none :: rest, k => k :: nanPositionsFrom rest (k + 1)
  | some _ :: rest, k => nanPositionsFrom rest (k + 1)

/-- Positions of the NaN entries of a signal. -/
def nanPositions (arr : List (Option ℚ)) : List ℕ :=
  nanPositionsFrom arr 0

/-! ### SignalFilter: `apply_antialiasing_filter`
From `src/Analysis/BP_Analysis/run_full_pipeline.py` (and the identical
copy in `src/Analysis/Waveform_Analysis/evaluate_waveforms.py`). -/

/-- Restore the original NaN mask onto a filtered signal
(`filtered[~valid_mask] = np.nan`). -/
def restoreNaN (mask : List (Option ℚ)) (filtered : List ℚ) : List (Option ℚ) :=
  (mask.zip filtered).map (fun p => if p.1.isSome then some p.2 else none)

/-- `apply_antialiasing_filter(values, sampling_rate, cutoff_freq, filter_order)`.
`flt` stands for the scipy `butter`+`filtfilt` pair: `some` is a successful
zero-phase filtering, `none` is the exception caught by the `except` branch. -/
def apply_antialiasing_filter (flt : List ℚ → Option (List ℚ))
    (values : List (Option ℚ)) (sampling_rate cutoff_freq : ℚ)
    (filter_order : ℕ) : List (Option ℚ) :=
  let validCount := (values.filterMap id).length
  if validCount < filter_order + 1 then
    values
  else
    let allValid := values.all (fun v => v.isSome)
    let arr : List (Option ℚ) := if allValid then values else nanInterp values
    let nyquist := sampling_rate / 2
    if nyquist ≤ cutoff_freq then
      arr
    else
      match flt (arr.filterMap id) with
      | some filtered =>
          if allValid then filtered.map some else restoreNaN values filtered
      | none => arr

/-! ### TemporalAligner: uniform resampling time axis
From `interpolate_reference` in `src/Analysis/BP_Analysis/run_full_pipeline.py`:
`resampled_times = np.arange(time_min, time_max + 1/RESAMPLE_RATE_HZ, 1/RESAMPLE_RATE_HZ)`. -/

/-- `np.arange(start, stop, step)` for a positive step: the
`⌈(stop - start)/step⌉` values `start + k·step`, `k = 0, 1, …`. -/
def arange (start stop step : ℚ) : List ℚ :=
  if 0 < step then
    (List.range (Int.toNat ⌈(stop - start) / step⌉)).map (fun k : ℕ => start + (k : ℚ) * step)
  else []

/-- `RESAMPLE_RATE_HZ = 30.0`. -/
def RESAMPLE_RATE_HZ : ℚ := 30

/-- The uniform time axis `interpolate_reference` resamples the beats onto:
built only when the beats hold more than one sample with a positive time
range (otherwise the code keeps the irregular path / NaN output). -/
def resampled_times (beat_times : List ℚ) : List ℚ :=
  if 1 < beat_times.length then
    let time_min := listMin beat_times
    let time_max := listMax beat_times
    if 0 < time_max - time_min then
      arange time_min (time_max + 1 / RESAMPLE_RATE_HZ) (1 / RESAMPLE_RATE_HZ)
    else []
  else []

/-! ### WindowAggregator: `aggregate_by_time_windows`
From `src/Analysis/BP_Analysis/train_bp_models.py`. -/

/-- The `time_unit` argument of `aggregate_by_time_windows`. -/
inductive TimeUnit where
  | seconds
  | milliseconds
  | auto
deriving DecidableEq

/-- Mean of a list of rationals (`np.mean` / pandas `mean`). -/
def meanQ (xs : List ℚ) : ℚ := xs.sum / (xs.length : ℚ)

/-- The samples surviving
`valid_mask = ~np.isnan(time) & np.isfinite(y_true) & np.isfinite(y_pred)`,
as `(time, true, pred)` triples. -/
def validTriples (times y_true y_pred : List (Option ℚ)) : List (ℚ × ℚ × ℚ) :=
  (times.zip (y_true.zip y_pred)).filterMap (fun s =>
    match s with
    | (some t, some a, some b) => some (t, a, b)
    | _ => none)

/-- Unit conversion applied to the valid time stamps
(`milliseconds` always divides by 1000, `auto` only when the maximum
exceeds 1e3). -/
def convertTimes (unit : TimeUnit) (l : List (ℚ × ℚ × ℚ)) : List (ℚ × ℚ × ℚ) :=
  match unit with
  | .seconds => l
  | .milliseconds => l.map (fun s => (s.1 / 1000, s.2))
  | .auto =>
    if 1000 < listMax (l.map (fun s => s.1)) then l.map (fun s => (s.1 / 1000, s.2))
    else l

/-- Window index of a sample: `np.floor(time / window_seconds)`. -/
def windowId (w t : ℚ) : ℤ := ⌊t / w⌋

/-- The ascending list of distinct window indices
(`groupby("window_id", sort=True)` key order). -/
def sortedWindowIds (w : ℚ) (l : List (ℚ × ℚ × ℚ)) : List ℤ :=
  ((l.map (fun s => windowId w s.1)).dedup).insertionSort (· ≤ ·)

/-- Per-window means of the valid samples: the `groupby(...).mean()` of the
source, whose intermediate time sorts do not affect the grouped means. -/
def aggCore (w : ℚ) (l : List (ℚ × ℚ × ℚ)) : List ℚ × List ℚ :=
  let ids := sortedWindowIds w l
  (ids.map (fun g => meanQ (l.filterMap (fun s =>
      if windowId w s.1 = g then some s.2.1 else none))),
   ids.map (fun g => meanQ (l.filterMap (fun s =>
      if windowId w s.1 = g then some s.2.2 else none))))

/-- `aggregate_by_time_windows(y_true, y_pred, time_values, window_seconds,
time_unit)`; `none` arguments model Python `None`. -/
def aggregate_by_time_windows (y_true y_pred : List (Option ℚ))
    (time_values : Option (List (Option ℚ))) (window_seconds : Option ℚ)
    (time_unit : TimeUnit) : List (Option ℚ) × List (Option ℚ) :=
  match time_values, window_seconds with
  | none, _ => (y_true, y_pred)
  | _, none => (y_true, y_pred)
  | some times, some w =>
    if w ≤ 0 then (y_true, y_pred)
    else
      let valid := validTriples times y_true y_pred
      if valid = [] then (y_true, y_pred)
      else
        let conv := convertTimes time_unit valid
        let res := aggCore w conv
        (res.1.map some, res.2.map some)

/-! ### `mape`
From `src/Analysis/BP_Analysis/train_bp_models.py` (identical copy in
`src/BP_Analysis/evaluate_models.py`); `⊤` models `np.inf`. -/

/-- `mape(y_true, y_pred)`: mask `y_true > 0`, `np.inf` when the mask is
empty, otherwise `np.mean(np.abs((y_pred[mask]-y_true[mask])/y_true[mask]))*100`. -/
def mape (y_true y_pred : List ℚ) : WithTop ℚ :=
  let masked := (y_true.zip y_pred).filter (fun p => decide (0 < p.1))
  if masked.length = 0 then ⊤
  else ((meanQ (masked.map (fun p => |p.2 - p.1| / p.1)) * 100 : ℚ) : WithTop ℚ)

/-- The index set the spec describes the MAPE mask by:
indices `i` with `y_true[i] > 0`. -/
def idxMask (y_true : List ℚ) : List ℕ :=
  (List.range y_true.length).filter (fun i => decide (0 < y_true.getD i 0))

/-- The spec's index-wise reading of MAPE: mean of `|pred_i - true_i|/true_i`
over exactly the indices with `true_i > 0`, times 100; `⊤` when no index
qualifies. -/
def mapeSpec (y_true y_pred : List ℚ) : WithTop ℚ :=
  let idx := idxMask y_true
  if idx.length = 0 then ⊤
  else ((meanQ (idx.map (fun i => |y_pred.getD i 0 - y_true.getD i 0| / y_true.getD i 0))
          * 100 : ℚ) : WithTop ℚ)

/-! ### FoldEvaluator: coefficient de-standardization
From `eval_one_method` in `src/Analysis/BP_Analysis/train_bp_models.py`:
`coef_real = coef_std / (scaler.scale_ + 1e-12)` and
`intercept_real = intercept_std - np.sum(coef_std * scaler.mean_ / (scaler.scale_ + 1e-12))`;
prediction with a coefficient vector is `np.dot(X, coefficients) + intercept`
(`predict_with_coefficients` in `src/BP_Analysis/evaluate_models.py`). -/

/-- `np.dot(x, coef) + intercept`. -/
def predictLinear (coef : List ℚ) (intercept : ℚ) (x : List ℚ) : ℚ :=
  ((coef.zip x).map (fun p => p.1 * p.2)).sum + intercept

/-- `coef_real = coef_std / (scale + eps)` (source `eps = 1e-12`). -/
def coef_real (coef_std scale : List ℚ) (eps : ℚ) : List ℚ :=
  (coef_std.zip scale).map (fun p => p.1 / (p.2 + eps))

/-- `intercept_real = intercept_std - Σⱼ coef_std[j]·mean[j]/(scale[j]+eps)`. -/
def intercept_real (intercept_std : ℚ) (coef_std mean scale : List ℚ) (eps : ℚ) : ℚ :=
  intercept_std -
    ((coef_std.zip (mean.zip scale)).map (fun p => p.1 * p.2.1 / (p.2.2 + eps))).sum

/-- `StandardScaler.transform`: `(x - mean) / scale`, with the same `eps`
slack in the denominator so that `eps = 0` is the scaler's exact transform. -/
def standardize (x mean scale : List ℚ) (eps : ℚ) : List ℚ :=
  (x.zip (mean.zip scale)).map (fun p => (p.1 - p.2.1) / (p.2.2 + eps))

/-! ### FoldEvaluator: group k-fold splitting -/

/-- Modelled from the spec: the repository delegates group splitting to
`sklearn.model_selection.GroupKFold`, external to the sources; per the spec
(§4.5) it partitions the distinct groups into `n_splits` folds so that every
row of a group lands entirely in either train or test of each fold.  With
`n_splits` equal to the number of distinct groups (the claimed setting,
enforced in `main` by shrinking `n_splits` to the group count) each fold's
test set is exactly the rows of one distinct group, its train set the rest. -/
def groupKFold (groups : List ℕ) : List (List ℕ × List ℕ) :=
  groups.dedup.map (fun g =>
    ((List.range groups.length).filter (fun i => decide (¬ groups.getD i 0 = g)),
     (List.range groups.length).filter (fun i => decide (groups.getD i 0 = g))))

/-! ### TemporalAligner: `trim_to_last_window`
From `load_and_trim_beats` in `src/Analysis/BP_Analysis/run_full_pipeline.py`
(the code instantiates the window length at `60.0` s; the window length is
the `W` parameter here, per the spec's `trim_to_last_window(series, W)`). -/

/-- Sort by time, keep the samples with `time >= max_time - w`, remap to
`time - (max_time - w)` and clamp the result into `[0, w]`. -/
def trim_to_last_window (times : List ℚ) (w : ℚ) : List ℚ :=
  if times = [] then []
  else
    let sorted := times.insertionSort (· ≤ ·)
    let start := listMax times - w
    (sorted.filter (fun t => decide (start ≤ t))).map
      (fun t => min w (max 0 (t - start)))

/-! ### OutlierRejector: temporal-neighbor stage
From `remove_outliers` in `src/Analysis/BP_Analysis/train_bp_models.py`
(stage 3): per group, with `subject_values` a frozen copy of the group's
column (`subject_df = df_clean[subject_mask].copy()`), flag each interior
sample whose distance to the mean of its two neighbours exceeds
`3.0 * subject_values.std()` (numpy population std), reading only the
frozen copy; flagged samples are nulled. -/

/-- Population variance (`np.std` squared, `ddof = 0`). -/
def popVar (values : List ℚ) : ℚ :=
  let m := meanQ values
  meanQ (values.map (fun v => (v - m) ^ 2))

/-- The stage's accept/flag decision for sample `i`, reading only the frozen
snapshot: interior `i`, with
`|v[i] - (v[i-1]+v[i+1])/2| > 3·std  ↔  (v[i] - (v[i-1]+v[i+1])/2)² > 9·var`
(both sides of the source's comparison are non-negative, so squaring the
real-valued `3.0 * std` threshold is exact). -/
def temporalFlag (values : List ℚ) (i : ℕ) : Bool :=
  if 1 ≤ i ∧ i + 1 < values.length then
    let nm := (values.getD (i - 1) 0 + values.getD (i + 1) 0) / 2
    decide (9 * popVar values < (values.getD i 0 - nm) ^ 2)
  else false

/-- The stage's write loop, processing the interior indices in the order
given by `order`: each flagged position is nulled, each decision reads the
frozen snapshot `values`. -/
def temporalStageOrder (values : List ℚ) (order : List ℕ) : List (Option ℚ) :=
  order.foldl (fun acc i => if temporalFlag values i then acc.set i none else acc)
    (values.map some)

/-- The temporal-neighbor stage on one group's frozen snapshot: skipped when
the group has fewer than 3 samples or zero variance (`std == 0`), otherwise
the loop `for i in range(1, len - 1)`. -/
def temporalStage (values : List ℚ) : List (Option ℚ) :=
  if values.length < 3 ∨ popVar values = 0 then values.map some
  else temporalStageOrder values (List.range' 1 (values.length - 2))

/-! ## Lemmas about NaN interpolation and the filter branches -/

theorem interpAt_of_getD {arr : List (Option ℚ)} {i : ℕ} {v : ℚ}
    (h : arr.getD i none = some v) : interpAt arr i = some v := by
  unfold interpAt
  rw [h]

theorem nanInterp_getElem? {arr : List (Option ℚ)} {i : ℕ} (h : i < arr.length) :
    (nanInterp arr)[i]? = some (interpAt arr i) := by
  simp [nanInterp, h]

theorem firstValidFrom_isSome {l : List (Option ℚ)} (h : ∃ x ∈ l, x.isSome) :
    ∀ k, (firstValidFrom l k).isSome := by
  induction l with
  | nil => simp at h
  | cons a rest ih =>
    intro k
    match a with
    | some v => simp [firstValidFrom]
    | none =>
      rcases h with ⟨x, hx, hs⟩
      rcases List.mem_cons.mp hx with rfl | hx
      · simp at hs
      · exact ih ⟨x, hx, hs⟩ (k + 1)

theorem lastValidIn_isSome {l : List (Option ℚ)} (h : ∃ x ∈ l, x.isSome) :
    ∀ k, (lastValidIn l k).isSome := by
  induction l with
  | nil => simp at h
  | cons a rest ih =>
    intro k
    match a with
    | some v =>
      unfold lastValidIn
      cases lastValidIn rest (k + 1) <;> simp
    | none =>
      rcases h with ⟨x, hx, hs⟩
      rcases List.mem_cons.mp hx with rfl | hx
      · simp at hs
      · exact ih ⟨x, hx, hs⟩ (k + 1)

theorem interpAt_isSome {arr : List (Option ℚ)} (hex : ∃ x ∈ arr, x.isSome)
    {i : ℕ} : (interpAt arr i).isSome := by
  rcases hex with ⟨x, hx, hs⟩
  rcases Option.isSome_iff_exists.mp hs with ⟨v, rfl⟩
  rcases List.getElem_of_mem hx with ⟨j, hj, hget⟩
  unfold interpAt
  cases hD : arr.getD i none with
  | some w => simp
  | none =>
    rcases Nat.lt_or_ge j (i + 1) with hji | hji
    · have hmem : (some v : Option ℚ) ∈ arr.take (i + 1) := by
        have hg : (arr.take (i + 1))[j]? = some (some v) := by
          simp [List.getElem?_take, hji, List.getElem?_eq_getElem hj, hget]
        exact List.getElem?_mem hg
      have hprev : (prevValid arr i).isSome :=
        lastValidIn_isSome ⟨some v, hmem, rfl⟩ 0
      rcases Option.isSome_iff_exists.mp hprev with ⟨lv, hlv⟩
      rw [hlv]
      cases nextValid arr i <;> simp
    · have hmem : (some v : Option ℚ) ∈ arr.drop i := by
        have hg : (arr.drop i)[j - i]? = some (some v) := by
          rw [List.getElem?_drop]
          have hji' : i + (j - i) = j := by omega
          rw [hji']
          simp [List.getElem?_eq_getElem hj, hget]
        exact List.getElem?_mem hg
      have hnext : (nextValid arr i).isSome :=
        firstValidFrom_isSome ⟨some v, hmem, rfl⟩ i
      rcases Option.isSome_iff_exists.mp hnext with ⟨rv, hrv⟩
      rw [hrv]
      cases hp : prevValid arr i <;> simp

theorem nanInterp_all_isSome {arr : List (Option ℚ)} (hex : ∃ x ∈ arr, x.isSome) :
    ∀ x ∈ nanInterp arr, x.isSome := by
  intro x hx
  rcases List.mem_map.mp hx with ⟨i, _, rfl⟩
  exact interpAt_isSome hex

theorem nanPositionsFrom_eq_nil {l : List (Option ℚ)} (h : ∀ x ∈ l, x.isSome) :
    ∀ k, nanPositionsFrom l k = [] := by
  induction l with
  | nil => intro k; rfl
  | cons a rest ih =>
    intro k
    match a with
    | some v => exact ih (fun x hx => h x (List.mem_cons_of_mem _ hx)) (k + 1)
    | none => exact absurd (h none (List.mem_cons_self _ _)) (by simp)

theorem exists_isSome_of_filterMap {values : List (Option ℚ)}
    (h : (values.filterMap id).length ≠ 0) : ∃ x ∈ values, x.isSome := by
  cases hfm : values.filterMap id with
  | nil => exact absurd (by rw [hfm]; rfl) h
  | cons y ys =>
    have : y ∈ values.filterMap id := by rw [hfm]; exact List.mem_cons_self _ _
    rcases List.mem_filterMap.mp this with ⟨x, hx, hid⟩
    exact ⟨x, hx, by simp [show x = some y from hid]⟩

theorem restoreNaN_cons (m : Option ℚ) (ms : List (Option ℚ)) (f : ℚ) (fs : List ℚ) :
    restoreNaN (m :: ms) (f :: fs)
      = (if m.isSome then some f else none) :: restoreNaN ms fs := rfl

theorem nanPositionsFrom_restoreNaN :
    ∀ (mask : List (Option ℚ)) (filtered : List ℚ),
      mask.length = filtered.length →
      ∀ k, nanPositionsFrom (restoreNaN mask filtered) k = nanPositionsFrom mask k
  | [], [], _, k => rfl
  | m :: ms, f :: fs, hlen, k => by
    have hlen' : ms.length = fs.length := by simpa using hlen
    rw [restoreNaN_cons]
    match m with
    | some v => simpa [nanPositionsFrom] using nanPositionsFrom_restoreNaN ms fs hlen' (k + 1)
    | none => simpa [nanPositionsFrom] using nanPositionsFrom_restoreNaN ms fs hlen' (k + 1)

/-! ## Branch equations of `apply_antialiasing_filter` -/

theorem filter_eq_of_small {flt values rate cutoff} {ord : ℕ}
    (h : (values.filterMap id).length < ord + 1) :
    apply_antialiasing_filter flt values rate cutoff ord = values := by
  simp [apply_antialiasing_filter, if_pos h]

theorem filter_eq_of_nyquist {flt values rate cutoff} {ord : ℕ}
    (hc : ¬ (values.filterMap id).length < ord + 1) (hcut : rate / 2 ≤ cutoff) :
    apply_antialiasing_filter flt values rate cutoff ord
      = (if values.all (fun v => v.isSome) then values else nanInterp values) := by
  simp only [apply_antialiasing_filter, if_neg hc, if_pos hcut]

theorem filter_eq_of_fail {flt : List ℚ → Option (List ℚ)} {values rate cutoff} {ord : ℕ}
    (hc : ¬ (values.filterMap id).length < ord + 1) (hcut : ¬ rate / 2 ≤ cutoff)
    (hf : flt ((if values.all (fun v => v.isSome) then values
                else nanInterp values).filterMap id) = none) :
    apply_antialiasing_filter flt values rate cutoff ord
      = (if values.all (fun v => v.isSome) then values else nanInterp values) := by
  simp only [apply_antialiasing_filter, if_neg hc, if_neg hcut, hf]

theorem filter_eq_of_success {flt : List ℚ → Option (List ℚ)} {values rate cutoff}
    {ord : ℕ} {filtered : List ℚ}
    (hc : ¬ (values.filterMap id).length < ord + 1) (hcut : ¬ rate / 2 ≤ cutoff)
    (hf : flt ((if values.all (fun v => v.isSome) then values
                else nanInterp values).filterMap id) = some filtered) :
    apply_antialiasing_filter flt values rate cutoff ord
      = (if values.all (fun v => v.isSome) then filtered.map some
         else restoreNaN values filtered) := by
  simp only [apply_antialiasing_filter, if_neg hc, if_neg hcut, hf]

/-! ## Claim C1 -/

/-- C1 counterexample: with `cutoff_hz = sampling_rate_hz / 2` (Nyquist) and
more than `order + 1` finite values, `apply_antialiasing_filter` is NOT a
no-op on an input holding a NaN: the NaN position comes back interpolated. -/
theorem nyquist_skip_not_noop :
    ¬ (apply_antialiasing_filter (fun l => some l)
        [some 0, some 1, some 2, some 3, some 4, none, some 6] 30 15 4
       = [some 0, some 1, some 2, some 3, some 4, none, some 6]) := by
  norm_num [apply_antialiasing_filter, nanInterp, interpAt, prevValid, nextValid,
    firstValidFrom, lastValidIn, List.range_succ, restoreNaN, List.filterMap_cons]
  exact fun h => Option.noConfusion h

/-- C1 (amended): if `cutoff_hz ≥ sampling_rate_hz / 2` and at least
`order + 1` values are finite, `apply_antialiasing_filter` returns the input
with its NaN positions replaced by their linear interpolation
(`nanInterp`, a no-op on NaN-free inputs); every finite position is
returned unchanged. -/
theorem nyquist_skip_interpolates {flt : List ℚ → Option (List ℚ)}
    {values : List (Option ℚ)} {rate cutoff : ℚ} {ord : ℕ}
    (hc : ¬ (values.filterMap id).length < ord + 1)
    (hcut : rate / 2 ≤ cutoff) :
    apply_antialiasing_filter flt values rate cutoff ord
      = (if values.all (fun v => v.isSome) then values else nanInterp values)
    ∧ ∀ (i : ℕ) (v : ℚ), values[i]? = some (some v) →
        (apply_antialiasing_filter flt values rate cutoff ord)[i]? = some (some v) := by
  refine ⟨filter_eq_of_nyquist hc hcut, ?_⟩
  intro i v h
  rw [filter_eq_of_nyquist hc hcut]
  by_cases hall : values.all (fun v => v.isSome)
  · rw [if_pos hall]; exact h
  · rw [if_neg hall]
    have hlt : i < values.length := by
      rcases List.getElem?_eq_some.mp h with ⟨hw, _⟩
      exact hw
    have hD : values.getD i none = some v := by
      rw [List.getD_eq_getElem?_getD, h]; rfl
    rw [nanInterp_getElem? hlt, interpAt_of_getD hD]

/-- Witness for C1's amended theorem at a concrete input. -/
theorem nyquist_skip_interpolates_witness :
    apply_antialiasing_filter (fun l => some l)
      [some 1, none, some 2, some 3, some 4, some 5] 30 15 4
      = (if ([some 1, none, some 2, some 3, some 4, some 5] : List (Option ℚ)).all
            (fun v => v.isSome)
         then [some 1, none, some 2, some 3, some 4, some 5]
         else nanInterp [some 1, none, some 2, some 3, some 4, some 5]) :=
  (nyquist_skip_interpolates (by norm_num [List.filterMap_cons]) (by norm_num)).1

/-! ## Claim C2 -/

/-- C2 counterexample: on the Nyquist-skip branch the NaN positions are NOT
restored — the output's NaN-position set differs from the input's. -/
theorem nyquist_skip_fills_nans :
    nanPositions (apply_antialiasing_filter (fun l => some l)
        [some 1, some 2, some 3, some 4, some 5, none, some 7] 30 20 4)
      ≠ nanPositions [some 1, some 2, some 3, some 4, some 5, none, some 7] := by
  norm_num [apply_antialiasing_filter, nanInterp, interpAt, prevValid, nextValid,
    firstValidFrom, lastValidIn, List.range_succ, restoreNaN, List.filterMap_cons,
    nanPositions, nanPositionsFrom]

/-- C2 (amended): the NaN positions of `apply_antialiasing_filter` output,
branch by branch: the too-few-finite-samples branch returns the input (NaN
positions preserved); the Nyquist-skip and internal-failure branches fill
every NaN by interpolation, leaving an output with no NaN at all; the
successful-filtering branch restores the input's NaN positions exactly. -/
theorem filter_nan_positions_by_branch (flt : List ℚ → Option (List ℚ))
    (values : List (Option ℚ)) (rate cutoff : ℚ) (ord : ℕ) :
    ((values.filterMap id).length < ord + 1 →
        apply_antialiasing_filter flt values rate cutoff ord = values)
    ∧ (¬ (values.filterMap id).length < ord + 1 → rate / 2 ≤ cutoff →
        nanPositions (apply_antialiasing_filter flt values rate cutoff ord) = [])
    ∧ (¬ (values.filterMap id).length < ord + 1 → ¬ rate / 2 ≤ cutoff →
        flt ((if values.all (fun v => v.isSome) then values
              else nanInterp values).filterMap id) = none →
        nanPositions (apply_antialiasing_filter flt values rate cutoff ord) = [])
    ∧ (∀ filtered, ¬ (values.filterMap id).length < ord + 1 → ¬ rate / 2 ≤ cutoff →
        flt ((if values.all (fun v => v.isSome) then values
              else nanInterp values).filterMap id) = some filtered →
        filtered.length = values.length →
        nanPositions (apply_antialiasing_filter flt values rate cutoff ord)
          = nanPositions values) := by
  have hnil : ∀ hc : ¬ (values.filterMap id).length < ord + 1,
      nanPositions (if values.all (fun v => v.isSome) then values
                    else nanInterp values) = [] := by
    intro hc
    have hex : ∃ x ∈ values, x.isSome :=
      exists_isSome_of_filterMap (by omega)
    by_cases hall : values.all (fun v => v.isSome)
    · rw [if_pos hall]
      exact nanPositionsFrom_eq_nil (fun x hx => List.all_eq_true.mp hall x hx) 0
    · rw [if_neg hall]
      exact nanPositionsFrom_eq_nil (nanInterp_all_isSome hex) 0
  refine ⟨fun h => filter_eq_of_small h, fun hc hcut => ?_, fun hc hcut hf => ?_,
    fun filtered hc hcut hf hlen => ?_⟩
  · rw [filter_eq_of_nyquist hc hcut]; exact hnil hc
  · rw [filter_eq_of_fail hc hcut hf]; exact hnil hc
  · rw [filter_eq_of_success hc hcut hf]
    by_cases hall : values.all (fun v => v.isSome)
    · rw [if_pos hall]
      have h1 : nanPositions (filtered.map some) = [] :=
        nanPositionsFrom_eq_nil (by intro x hx; rcases List.mem_map.mp hx with ⟨y, _, rfl⟩; rfl) 0
      have h2 : nanPositions values = [] :=
        nanPositionsFrom_eq_nil (fun x hx => List.all_eq_true.mp hall x hx) 0
      rw [h1, h2]
    · rw [if_neg hall]
      exact nanPositionsFrom_restoreNaN values filtered hlen.symm 0

/-- Witness for C2's amended theorem: the too-few-samples branch at a
concrete input. -/
theorem filter_nan_positions_by_branch_witness :
    apply_antialiasing_filter (fun l => some l) [none, some 1] 30 15 4
      = [none, some 1] :=
  (filter_nan_positions_by_branch (fun l => some l) [none, some 1] 30 15 4).1
    (by norm_num [List.filterMap_cons])

/-! ## Claim C3 -/

theorem arange_getElem? {start stop step : ℚ} (hstep : 0 < step) {k : ℕ}
    (hk : k < Int.toNat ⌈(stop - start) / step⌉) :
    (arange start stop step)[k]? = some (start + (k : ℚ) * step) := by
  rw [arange, if_pos hstep, List.getElem?_map, List.getElem?_range hk, Option.map_some']

theorem arange_mem_bounds {start stop step : ℚ} (hstep : 0 < step) :
    ∀ t ∈ arange start stop step, start ≤ t ∧ t < stop := by
  intro t ht
  rw [arange, if_pos hstep] at ht
  rcases List.mem_map.mp ht with ⟨k, hk, rfl⟩
  rw [List.mem_range] at hk
  have hklt : k < Int.toNat ⌈(stop - start) / step⌉ := hk
  constructor
  · have : (0 : ℚ) ≤ (k : ℚ) * step := by positivity
    linarith
  · have h1 : (k : ℤ) < ⌈(stop - start) / step⌉ := Int.lt_toNat.mp hklt
    have h2 : ((k : ℚ)) ≤ (⌈(stop - start) / step⌉ : ℚ) - 1 := by
      have : (k : ℤ) ≤ ⌈(stop - start) / step⌉ - 1 := by omega
      calc ((k : ℚ)) = ((k : ℤ) : ℚ) := by norm_cast
        _ ≤ ((⌈(stop - start) / step⌉ - 1 : ℤ) : ℚ) := by exact_mod_cast this
        _ = (⌈(stop - start) / step⌉ : ℚ) - 1 := by push_cast; ring
    have h3 : (⌈(stop - start) / step⌉ : ℚ) - 1 < (stop - start) / step := by
      have := Int.ceil_lt_add_one ((stop - start) / step)
      linarith
    have h4 : (k : ℚ) < (stop - start) / step := lt_of_le_of_lt h2 h3
    have h5 : (k : ℚ) * step < stop - start := (lt_div_iff₀ hstep).mp h4
    linarith

/-- C3 counterexample: on beats with times `[0, 21/20]` the generated
uniform 30 Hz axis contains the sample time `16/15`, which exceeds the
input's maximum time `21/20`. -/
theorem resample_axis_exceeds_max :
    (16 / 15 : ℚ) ∈ resampled_times [0, 21 / 20]
      ∧ listMax [0, 21 / 20] < 16 / 15 := by
  have hax : resampled_times [0, 21 / 20] = arange 0 (13 / 12) (1 / 30) := by
    rw [resampled_times, if_pos (by norm_num)]
    norm_num [listMin, listMax, RESAMPLE_RATE_HZ]
  have hceil : Int.toNat ⌈((13 / 12 : ℚ) - 0) / (1 / 30)⌉ = 33 := by
    have hc : (⌈((13 / 12 : ℚ) - 0) / (1 / 30)⌉ : ℤ) = 33 := by
      rw [Int.ceil_eq_iff] ; norm_num
    rw [hc]
    rfl
  constructor
  · rw [hax, arange, if_pos (by norm_num : (0 : ℚ) < 1 / 30)]
    refine List.mem_map.mpr ⟨32, List.mem_range.mpr (by rw [hceil]; norm_num), by norm_num⟩
  · norm_num [listMax]

/-- C3 (amended): for beats with more than one sample and a positive time
range, the generated axis starts exactly at `min_time`, has fixed spacing
`1/30` s, and every generated time `t` satisfies
`min_time ≤ t < max_time + 1/30` — the final sample may exceed `max_time`
by less than one step (the `np.arange` stop bound), so the axis is not
confined to `[min_time, max_time]`. -/
theorem resample_axis_spacing_and_range (beat_times : List ℚ)
    (h1 : 1 < beat_times.length)
    (h2 : 0 < listMax beat_times - listMin beat_times) :
    (∀ t ∈ resampled_times beat_times,
        listMin beat_times ≤ t ∧ t < listMax beat_times + 1 / 30)
    ∧ (resampled_times beat_times)[0]? = some (listMin beat_times)
    ∧ ∀ (k : ℕ), k + 1 < (resampled_times beat_times).length →
        (resampled_times beat_times)[k + 1]?.getD 0
          - (resampled_times beat_times)[k]?.getD 0 = 1 / 30 := by
  have hstep : (0 : ℚ) < 1 / 30 := by norm_num
  have heq : resampled_times beat_times
      = arange (listMin beat_times) (listMax beat_times + 1 / 30) (1 / 30) := by
    rw [resampled_times, if_pos h1]
    norm_num [RESAMPLE_RATE_HZ, h2]
  have hlen : (arange (listMin beat_times) (listMax beat_times + 1 / 30) (1 / 30)).length
      = Int.toNat ⌈(listMax beat_times + 1 / 30 - listMin beat_times) / (1 / 30)⌉ := by
    rw [arange, if_pos hstep, List.length_map, List.length_range]
  refine ⟨?_, ?_, ?_⟩
  · intro t ht
    rw [heq] at ht
    have := arange_mem_bounds hstep t ht
    exact ⟨this.1, by linarith [this.2]⟩
  · rw [heq]
    have hpos : 0 < Int.toNat ⌈(listMax beat_times + 1 / 30 - listMin beat_times) / (1 / 30)⌉ := by
      have hx : (0 : ℚ) < (listMax beat_times + 1 / 30 - listMin beat_times) / (1 / 30) := by
        apply div_pos _ hstep
        linarith
      have : (0 : ℤ) < ⌈(listMax beat_times + 1 / 30 - listMin beat_times) / (1 / 30)⌉ :=
        Int.ceil_pos.mpr hx
      omega
    rw [arange_getElem? hstep hpos]
    norm_num
  · intro k hk
    rw [heq] at hk ⊢
    rw [hlen] at hk
    have hk' : k < Int.toNat ⌈(listMax beat_times + 1 / 30 - listMin beat_times) / (1 / 30)⌉ := by
      omega
    rw [arange_getElem? hstep hk, arange_getElem? hstep hk']
    simp only [Option.getD_some]
    push_cast
    ring

/-- Witness for C3's amended theorem at a concrete input. -/
theorem resample_axis_spacing_and_range_witness :
    (resampled_times [0, 1])[0]? = some (listMin [0, 1]) :=
  (resample_axis_spacing_and_range [0, 1] (by norm_num)
    (by norm_num [listMax, listMin])).2.1

/-! ## Claims C4 and C9 -/

theorem sortedWindowIds_sorted (w : ℚ) (l : List (ℚ × ℚ × ℚ)) :
    List.Sorted (· ≤ ·) (sortedWindowIds w l) :=
  List.sorted_insertionSort _ _

theorem sortedWindowIds_nodup (w : ℚ) (l : List (ℚ × ℚ × ℚ)) :
    (sortedWindowIds w l).Nodup :=
  (List.perm_insertionSort _ _).nodup_iff.mpr
    (List.nodup_dedup (l.map (fun s => windowId w s.1)))

theorem sortedWindowIds_chain (w : ℚ) (l : List (ℚ × ℚ × ℚ)) :
    List.Chain' (· < ·) (sortedWindowIds w l) :=
  List.Pairwise.chain'
    ((sortedWindowIds_sorted w l).lt_of_le (sortedWindowIds_nodup w l))

theorem mem_sortedWindowIds (w : ℚ) (l : List (ℚ × ℚ × ℚ)) (g : ℤ) :
    g ∈ sortedWindowIds w l ↔ ∃ s ∈ l, windowId w s.1 = g := by
  rw [sortedWindowIds]
  rw [(List.perm_insertionSort (· ≤ ·) _).mem_iff, List.mem_dedup, List.mem_map]

theorem sortedWindowIds_perm {w : ℚ} {l l' : List (ℚ × ℚ × ℚ)}
    (h : List.Perm l l') : sortedWindowIds w l = sortedWindowIds w l' := by
  apply List.eq_of_perm_of_sorted _ (sortedWindowIds_sorted w l) (sortedWindowIds_sorted w l')
  have p1 : List.Perm (sortedWindowIds w l) ((l.map (fun s => windowId w s.1)).dedup) := by
    rw [sortedWindowIds]; exact List.perm_insertionSort _ _
  have p3 : List.Perm (sortedWindowIds w l') ((l'.map (fun s => windowId w s.1)).dedup) := by
    rw [sortedWindowIds]; exact List.perm_insertionSort _ _
  exact (p1.trans ((h.map _).dedup)).trans p3.symm

theorem aggCore_perm {w : ℚ} {l l' : List (ℚ × ℚ × ℚ)} (h : List.Perm l l') :
    aggCore w l = aggCore w l' := by
  have hm : ∀ f : ℚ × ℚ × ℚ → ℚ, ∀ g : ℤ,
      meanQ (l.filterMap (fun s => if windowId w s.1 = g then some (f s) else none))
        = meanQ (l'.filterMap (fun s => if windowId w s.1 = g then some (f s) else none)) := by
    intro f g
    have hp := h.filterMap (fun s => if windowId w s.1 = g then some (f s) else none)
    rw [meanQ, meanQ, hp.sum_eq, hp.length_eq]
  rw [aggCore, aggCore, sortedWindowIds_perm h]
  exact Prod.ext (List.map_congr_left (fun g _ => hm (fun s => s.2.1) g))
    (List.map_congr_left (fun g _ => hm (fun s => s.2.2) g))

/-- C4 counterexample: with `window_s = 10 > 0` and a single sample whose
time is NaN, `aggregate_by_time_windows` returns the inputs unchanged — one
output pair although there are zero non-empty windows — instead of dropping
the invalid sample. -/
theorem aggregate_invalid_not_window_shaped :
    aggregate_by_time_windows [some 30] [some 31] (some [none]) (some 10)
        TimeUnit.seconds = ([some 30], [some 31])
      ∧ validTriples [none] [some 30] [some 31] = [] := by
  constructor
  · norm_num [aggregate_by_time_windows, validTriples]
  · rfl

/-- C4 (amended): for `window_s > 0` and at least one valid sample,
`aggregate_by_time_windows` (seconds unit) drops the invalid samples and
returns per-window means of `true` and `pred`, one pair per non-empty
window in strictly ascending window-index order (`floor(time/window_s)`),
with the non-empty windows being exactly those hit by a valid sample; the
result is invariant under permuting the samples; on
`times=[3,1,2], true=[30,10,20], pred=[31,11,21], window_s=10` the output
is `([20], [21])`. -/
theorem aggregate_windows_spec :
    (∀ (times y_true y_pred : List (Option ℚ)) (w : ℚ), 0 < w →
      validTriples times y_true y_pred ≠ [] →
      aggregate_by_time_windows y_true y_pred (some times) (some w) TimeUnit.seconds
        = ((aggCore w (validTriples times y_true y_pred)).1.map some,
           (aggCore w (validTriples times y_true y_pred)).2.map some))
    ∧ (∀ (w : ℚ) (l : List (ℚ × ℚ × ℚ)),
        List.Chain' (· < ·) (sortedWindowIds w l)
        ∧ (aggCore w l).1.length = (sortedWindowIds w l).length
        ∧ (aggCore w l).2.length = (sortedWindowIds w l).length
        ∧ ∀ g : ℤ, g ∈ sortedWindowIds w l ↔ ∃ s ∈ l, windowId w s.1 = g)
    ∧ (∀ (w : ℚ) (l l' : List (ℚ × ℚ × ℚ)), List.Perm l l' → aggCore w l = aggCore w l')
    ∧ aggregate_by_time_windows [some 30, some 10, some 20] [some 31, some 11, some 21]
        (some [some 3, some 1, some 2]) (some 10) TimeUnit.seconds
        = ([some 20], [some 21]) := by
  refine ⟨?_, ?_, fun w l l' h => aggCore_perm h, ?_⟩
  · intro times y_true y_pred w hw hne
    rw [aggregate_by_time_windows]
    rw [if_neg (by exact not_le.mpr hw), if_neg hne]
    rfl
  · intro w l
    exact ⟨sortedWindowIds_chain w l,
      by rw [aggCore, List.length_map],
      by rw [aggCore, List.length_map],
      mem_sortedWindowIds w l⟩
  · have h3 : windowId 10 3 = 0 := by norm_num [windowId]
    have h1 : windowId 10 1 = 0 := by norm_num [windowId]
    have h2 : windowId 10 2 = 0 := by norm_num [windowId]
    have hvalid : validTriples [some 3, some 1, some 2]
        [some 30, some 10, some 20] [some 31, some 11, some 21]
        = [(3, 30, 31), (1, 10, 11), (2, 20, 21)] := rfl
    rw [aggregate_by_time_windows, if_neg (by norm_num), hvalid,
      if_neg (by simp)]
    have hids : sortedWindowIds 10 [(3, 30, 31), (1, 10, 11), (2, 20, 21)] = [0] := by
      rw [sortedWindowIds]
      norm_num [h1, h2, h3, List.dedup_cons_of_mem, List.insertionSort, List.orderedInsert]
    have hconv : convertTimes TimeUnit.seconds [(3, 30, 31), (1, 10, 11), (2, 20, 21)]
        = [(3, 30, 31), (1, 10, 11), (2, 20, 21)] := rfl
    rw [hconv]
    simp only [aggCore]
    rw [hids]
    norm_num [h1, h2, h3, List.filterMap_cons, meanQ]

/-- Witness for C4's amended theorem: its universally quantified aggregation
equation applied at a concrete valid input. -/
theorem aggregate_windows_spec_witness :
    aggregate_by_time_windows [some 5] [some 6] (some [some 1]) (some 2) TimeUnit.seconds
      = ((aggCore 2 (validTriples [some 1] [some 5] [some 6])).1.map some,
         (aggCore 2 (validTriples [some 1] [some 5] [some 6])).2.map some) :=
  aggregate_windows_spec.1 [some 1] [some 5] [some 6] 2 (by norm_num)
    (by rw [show validTriples [some 1] [some 5] [some 6] = [(1, 5, 6)] from rfl]; simp)

/-- C9: when every sample is invalid (NaN time or non-finite value), or
`window_seconds`/`time_values` is `None`, or `window_seconds ≤ 0`,
`aggregate_by_time_windows` returns the original arrays unchanged. -/
theorem aggregate_fallback_returns_inputs
    (y_true y_pred : List (Option ℚ)) (tv : Option (List (Option ℚ)))
    (w : Option ℚ) (u : TimeUnit)
    (h : tv = none ∨ w = none ∨ (∃ x, w = some x ∧ x ≤ 0)
      ∨ (∃ ts, tv = some ts ∧ validTriples ts y_true y_pred = [])) :
    aggregate_by_time_windows y_true y_pred tv w u = (y_true, y_pred) := by
  rcases h with rfl | rfl | ⟨x, rfl, hx⟩ | ⟨ts, rfl, hts⟩
  · cases w <;> rfl
  · cases tv <;> rfl
  · cases tv with
    | none => rfl
    | some ts => rw [aggregate_by_time_windows, if_pos hx]
  · cases w with
    | none => rfl
    | some x =>
      rw [aggregate_by_time_windows]
      by_cases hx : x ≤ 0
      · rw [if_pos hx]
      · rw [if_neg hx, if_pos hts]

/-- Witness for C9 at a concrete all-invalid input. -/
theorem aggregate_fallback_returns_inputs_witness :
    aggregate_by_time_windows [some 30, some 40] [none, some 41]
      (some [some 1, none]) (some 10) TimeUnit.seconds
      = ([some 30, some 40], [none, some 41]) :=
  aggregate_fallback_returns_inputs _ _ _ _ _ (Or.inr (Or.inr (Or.inr ⟨_, rfl, rfl⟩)))

/-! ## Claim C5 -/

theorem idxMask_cons (a : ℚ) (as : List ℚ) :
    idxMask (a :: as)
      = (if 0 < a then [0] else []) ++ (idxMask as).map Nat.succ := by
  rw [idxMask, idxMask, List.length_cons, List.range_succ_eq_map, List.filter_cons]
  by_cases ha : 0 < a
  · rw [if_pos (by simpa using ha), if_pos ha, List.filter_map]
    simp [Function.comp_def, List.getElem?_cons_succ]
  · rw [if_neg (by simpa using ha), if_neg ha, List.filter_map]
    simp [Function.comp_def, List.getElem?_cons_succ]

theorem mape_masked_eq :
    ∀ (y_true y_pred : List ℚ), y_true.length = y_pred.length →
      ((y_true.zip y_pred).filter (fun p => decide (0 < p.1))).map
          (fun p => |p.2 - p.1| / p.1)
        = (idxMask y_true).map
            (fun i => |y_pred.getD i 0 - y_true.getD i 0| / y_true.getD i 0)
  | [], [], _ => rfl
  | [], b :: bs, h => by simp at h
  | a :: as, [], h => by simp at h
  | a :: as, b :: bs, h => by
    have h' : as.length = bs.length := by simpa using h
    have ih := mape_masked_eq as bs h'
    rw [List.zip_cons_cons, List.filter_cons, idxMask_cons]
    by_cases ha : 0 < a
    · rw [if_pos (by simpa using ha), if_pos ha]
      simp only [List.map_cons, List.map_append, List.map_map]
      rw [ih]
      simp [Function.comp]
    · rw [if_neg (by simpa using ha), if_neg ha]
      simp only [List.nil_append, List.map_map]
      rw [ih]
      simp [Function.comp]

/-- C5: `mape` equals the spec's index-wise description (mean of
`|pred_i - true_i| / true_i` over exactly the indices with `true_i > 0`,
times 100, and `+∞` when no such index exists), and
`mape [0, 50, 100] [0, 55, 90] = 10` with the `true = 0` sample excluded. -/
theorem mape_matches_spec :
    (∀ y_true y_pred : List ℚ, y_true.length = y_pred.length →
        mape y_true y_pred = mapeSpec y_true y_pred)
    ∧ mape [0, 50, 100] [0, 55, 90] = ((10 : ℚ) : WithTop ℚ) := by
  constructor
  · intro y_true y_pred h
    have hmap := mape_masked_eq y_true y_pred h
    have hlen : ((y_true.zip y_pred).filter (fun p => decide (0 < p.1))).length
        = (idxMask y_true).length := by
      have := congrArg List.length hmap
      simpa using this
    rw [mape, mapeSpec, hlen]
    by_cases hz : (idxMask y_true).length = 0
    · rw [if_pos hz, if_pos hz]
    · rw [if_neg hz, if_neg hz, meanQ, meanQ, hmap]
  · have hfilter : (([(0 : ℚ), 50, 100].zip [(0 : ℚ), 55, 90]).filter
        (fun p => decide (0 < p.1))) = [((50 : ℚ), (55 : ℚ)), (100, 90)] := by
      norm_num [List.zip_cons_cons, List.filter_cons]
    rw [mape, hfilter]
    norm_num [meanQ]

/-- Witness for C5's universally quantified part at a concrete input. -/
theorem mape_matches_spec_witness :
    mape [3] [4] = mapeSpec [3] [4] :=
  mape_matches_spec.1 [3] [4] rfl

/-! ## Claim C6 -/

theorem destd_sums (eps : ℚ) (heps : 0 ≤ eps) :
    ∀ (c m sc x : List ℚ), m.length = c.length → sc.length = c.length →
      x.length = c.length → (∀ s ∈ sc, 0 < s) →
      (((coef_real c sc eps).zip x).map (fun p => p.1 * p.2)).sum
          - ((c.zip (m.zip sc)).map (fun p => p.1 * p.2.1 / (p.2.2 + eps))).sum
        = ((c.zip (standardize x m sc eps)).map (fun p => p.1 * p.2)).sum
  | [], m, sc, x, hm, hs, hx, hpos => by
    rw [List.length_eq_zero.mp hm, List.length_eq_zero.mp hs, List.length_eq_zero.mp hx]
    simp [coef_real, standardize]
  | ch :: ct, m, sc, x, hm, hs, hx, hpos => by
    match m, sc, x with
    | [], _, _ => simp at hm
    | _ :: _, [], _ => simp at hs
    | _ :: _, _ :: _, [] => simp at hx
    | mh :: mt, sh :: st, xh :: xt =>
      have hm' : mt.length = ct.length := by simpa using hm
      have hs' : st.length = ct.length := by simpa using hs
      have hx' : xt.length = ct.length := by simpa using hx
      have hpos' : ∀ s ∈ st, 0 < s := fun s hmem => hpos s (List.mem_cons_of_mem _ hmem)
      have ih := destd_sums eps heps ct mt st xt hm' hs' hx' hpos'
      have hsh : (0 : ℚ) < sh := hpos sh (List.mem_cons_self _ _)
      have hne : sh + eps ≠ 0 := by positivity
      simp only [coef_real, standardize, List.zip_cons_cons, List.map_cons,
        List.sum_cons] at ih ⊢
      have hterm : ch / (sh + eps) * xh - ch * mh / (sh + eps)
          = ch * ((xh - mh) / (sh + eps)) := by
        field_simp
        ring
      linarith [ih, hterm]

/-- C6: de-standardization round-trip — the raw-unit model
(`coef_raw = coef_std/(scale+eps)`,
`intercept_raw = intercept_std - Σ coef_std·mean/(scale+eps)`) predicts on a
raw input exactly what the standardized model predicts on the standardized
input `(x - mean)/(scale + eps)`; the identity is exact for every `eps ≥ 0`
(the source adds `eps = 1e-12` to `scale`), in particular at `eps = 0` for
the scaler's exact transform. -/
theorem destandardization_roundtrip (coef_std mean scale x : List ℚ)
    (intercept_std eps : ℚ)
    (hm : mean.length = coef_std.length) (hs : scale.length = coef_std.length)
    (hx : x.length = coef_std.length)
    (hpos : ∀ s ∈ scale, 0 < s) (heps : 0 ≤ eps) :
    predictLinear (coef_real coef_std scale eps)
        (intercept_real intercept_std coef_std mean scale eps) x
      = predictLinear coef_std intercept_std (standardize x mean scale eps) := by
  have h := destd_sums eps heps coef_std mean scale x hm hs hx hpos
  rw [predictLinear, predictLinear, intercept_real]
  linarith [h]

/-- Witness for C6 at a concrete fitted model. -/
theorem destandardization_roundtrip_witness :
    predictLinear (coef_real [2, -1] [3, 5] 0)
        (intercept_real 7 [2, -1] [1, 4] [3, 5] 0) [10, 20]
      = predictLinear [2, -1] 7 (standardize [10, 20] [1, 4] [3, 5] 0) :=
  destandardization_roundtrip [2, -1] [1, 4] [3, 5] [10, 20] 7 0 rfl rfl rfl
    (by intro s hs; simp only [List.mem_cons, List.not_mem_nil, or_false] at hs
        rcases hs with rfl | rfl <;> norm_num) le_rfl

/-! ## Claim C7 -/

theorem countP_eq_one_of_nodup_mem :
    ∀ (l : List ℕ) (a : ℕ), l.Nodup → a ∈ l →
      l.countP (fun g => decide (a = g)) = 1
  | [], a, _, ha => absurd ha (List.not_mem_nil a)
  | b :: t, a, hn, ha => by
    rcases List.nodup_cons.mp hn with ⟨hbt, hnt⟩
    by_cases hab : a = b
    · subst hab
      have hzero : t.countP (fun g => decide (a = g)) = 0 := by
        rw [List.countP_eq_zero]
        intro g hg
        simp only [decide_eq_true_eq]
        intro heq
        exact hbt (heq ▸ hg)
      rw [List.countP_cons, hzero]
      simp
    · have hat : a ∈ t := by
        rcases List.mem_cons.mp ha with h | h
        · exact absurd h hab
        · exact h
      rw [List.countP_cons, countP_eq_one_of_nodup_mem t a hnt hat]
      simp [hab]

/-- C7: for group-based splitting with one fold per distinct group (the
`n_splits = number of groups` setting), no group's rows appear in both the
train and the test side of the same fold, and every row lands in a test set
of exactly one fold. -/
theorem groupKFold_partition (groups : List ℕ) :
    (∀ f ∈ groupKFold groups, ∀ i ∈ f.1, ∀ j ∈ f.2,
        groups.getD i 0 ≠ groups.getD j 0)
    ∧ ∀ i, i < groups.length →
        (groupKFold groups).countP (fun f => decide (i ∈ f.2)) = 1 := by
  constructor
  · intro f hf i hi j hj
    rcases List.mem_map.mp hf with ⟨g, hg, rfl⟩
    have hi' := (List.mem_filter.mp hi).2
    have hj' := (List.mem_filter.mp hj).2
    simp only [decide_eq_true_eq] at hi' hj'
    rw [hj']
    exact hi'
  · intro i hi
    rw [groupKFold, List.countP_map]
    have hmem_test : ∀ g : ℕ,
        (i ∈ (List.range groups.length).filter (fun j => decide (groups.getD j 0 = g)))
          ↔ groups.getD i 0 = g := by
      intro g
      rw [List.mem_filter, List.mem_range]
      simp [hi, eq_comm]
    have hcong : ∀ g ∈ groups.dedup,
        (((fun f : List ℕ × List ℕ => decide (i ∈ f.2)) ∘ fun g =>
            ((List.range groups.length).filter (fun j => decide (¬ groups.getD j 0 = g)),
             (List.range groups.length).filter (fun j => decide (groups.getD j 0 = g)))) g = true
          ↔ (fun g => decide (groups.getD i 0 = g)) g = true) := by
      intro g _
      simp only [Function.comp_apply, decide_eq_true_eq]
      exact hmem_test g
    rw [List.countP_congr hcong]
    apply countP_eq_one_of_nodup_mem groups.dedup (groups.getD i 0) (List.nodup_dedup groups)
    rw [List.mem_dedup]
    have : groups.getD i 0 = groups.get ⟨i, hi⟩ := by
      rw [List.getD_eq_getElem?_getD, List.getElem?_eq_getElem hi]
      rfl
    rw [this]
    exact List.get_mem groups i hi

/-- Witness for C7 at a concrete grouping (three distinct groups). -/
theorem groupKFold_partition_witness :
    (groupKFold [7, 7, 8, 9]).countP (fun f => decide (3 ∈ f.2)) = 1 :=
  (groupKFold_partition [7, 7, 8, 9]).2 3 (by norm_num)

/-! ## Claim C8 -/

/-- C8: `trim_to_last_window` keeps exactly the samples within `W` seconds
of the maximum time (their count is the count of samples with
`time ≥ max_time - W`), remaps every kept sample into `[0, W]`, and keeps
no more samples for a smaller window `W' ≤ W`. -/
theorem trim_to_last_window_spec (times : List ℚ) (w w' : ℚ)
    (hne : times ≠ []) (hw' : 0 < w') (hww : w' ≤ w) :
    (∀ t ∈ trim_to_last_window times w, 0 ≤ t ∧ t ≤ w)
    ∧ (trim_to_last_window times w').length ≤ (trim_to_last_window times w).length
    ∧ (trim_to_last_window times w).length
        = times.countP (fun t => decide (listMax times - w ≤ t)) := by
  have hw : (0 : ℚ) ≤ w := le_trans (le_of_lt hw') hww
  refine ⟨?_, ?_, ?_⟩
  · intro t ht
    rw [trim_to_last_window, if_neg hne] at ht
    rcases List.mem_map.mp ht with ⟨u, _, rfl⟩
    exact ⟨le_min hw (le_max_left 0 _), min_le_left _ _⟩
  · rw [trim_to_last_window, trim_to_last_window, if_neg hne, if_neg hne,
      List.length_map, List.length_map]
    apply List.Sublist.length_le
    apply List.monotone_filter_right
    intro a ha
    simp only [decide_eq_true_eq] at ha ⊢
    linarith
  · rw [trim_to_last_window, if_neg hne, List.length_map,
      ← List.countP_eq_length_filter]
    exact ((List.perm_insertionSort (· ≤ ·) times).countP_eq _)

/-- Witness for C8 at a concrete series. -/
theorem trim_to_last_window_spec_witness :
    (trim_to_last_window [1, 2] 2).length
      = List.countP (fun t => decide (listMax [1, 2] - 2 ≤ t)) [1, 2] :=
  (trim_to_last_window_spec [1, 2] 2 1 (by simp) (by norm_num) (by norm_num)).2.2

/-! ## Claim C10 -/

theorem temporal_foldl_getElem? (values : List ℚ) :
    ∀ (order : List ℕ) (acc : List (Option ℚ)) (j : ℕ),
      (order.foldl (fun a i => if temporalFlag values i then a.set i none else a) acc)[j]?
        = if j ∈ order ∧ temporalFlag values j ∧ j < acc.length
          then some none else acc[j]?
  | [], acc, j => by simp
  | o :: os, acc, j => by
    rw [List.foldl_cons, temporal_foldl_getElem? values os]
    have hlen : (if temporalFlag values o then acc.set o none else acc).length
        = acc.length := by
      by_cases ho : temporalFlag values o
      · rw [if_pos ho, List.length_set]
      · rw [if_neg ho]
    rw [hlen]
    by_cases hjos : j ∈ os ∧ temporalFlag values j ∧ j < acc.length
    · rw [if_pos hjos, if_pos ⟨List.mem_cons_of_mem _ hjos.1, hjos.2⟩]
    · rw [if_neg hjos]
      by_cases hoj : o = j
      · subst hoj
        by_cases hf : temporalFlag values o
        · rw [if_pos hf]
          by_cases hlt : o < acc.length
          · rw [List.getElem?_set, if_pos rfl, if_pos hlt,
              if_pos ⟨List.mem_cons_self _ _, hf, hlt⟩]
          · rw [List.getElem?_set, if_pos rfl, if_neg hlt,
              if_neg (fun h => hlt h.2.2), List.getElem?_eq_none (by omega)]
        · rw [if_neg hf, if_neg (fun h => hf h.2.1)]
      · have hnc : ¬ (j ∈ o :: os ∧ temporalFlag values j ∧ j < acc.length) := by
          intro h
          rcases List.mem_cons.mp h.1 with h' | h'
          · exact hoj h'.symm
          · exact hjos ⟨h', h.2⟩
        rw [if_neg hnc]
        by_cases hf : temporalFlag values o
        · rw [if_pos hf, List.getElem?_set, if_neg hoj]
        · rw [if_neg hf]

theorem temporalStageOrder_eq (values : List ℚ) (order : List ℕ) :
    temporalStageOrder values order
      = (List.range values.length).map (fun i =>
          if i ∈ order ∧ temporalFlag values i then none
          else some (values.getD i 0)) := by
  apply List.ext_getElem?
  intro j
  rw [temporalStageOrder, temporal_foldl_getElem? values order, List.length_map,
    List.getElem?_map, List.getElem?_map]
  by_cases hj : j < values.length
  · rw [List.getElem?_range hj, List.getElem?_eq_getElem hj, Option.map_some',
      Option.map_some']
    have hD : values.getD j 0 = values[j] := by
      rw [List.getD_eq_getElem?_getD, List.getElem?_eq_getElem hj]
      rfl
    by_cases hc : j ∈ order ∧ temporalFlag values j
    · rw [if_pos ⟨hc.1, hc.2, hj⟩, if_pos hc]
    · rw [if_neg (fun h => hc ⟨h.1, h.2.1⟩), if_neg hc, hD]
  · rw [List.getElem?_eq_none (le_of_not_lt (by simpa using hj)),
      List.getElem?_eq_none (by rw [List.length_range]; omega),
      Option.map_none', Option.map_none', if_neg (fun h => hj h.2.2)]

/-- C10: the temporal-neighbor outlier stage reads only the frozen snapshot
of the group's values — each position of its output is decided by
`temporalFlag` on the untouched snapshot (so nulling one sample never
changes another sample's accept/flag decision in the same pass), and
processing the interior indices in any order yields the same result. -/
theorem temporal_stage_snapshot :
    (∀ values : List ℚ, ¬ (values.length < 3 ∨ popVar values = 0) →
      temporalStage values
        = (List.range values.length).map (fun i =>
            if temporalFlag values i then none else some (values.getD i 0)))
    ∧ (∀ (values : List ℚ) (o₁ o₂ : List ℕ), List.Perm o₁ o₂ →
        temporalStageOrder values o₁ = temporalStageOrder values o₂) := by
  constructor
  · intro values h
    rw [temporalStage, if_neg h, temporalStageOrder_eq]
    apply List.map_congr_left
    intro i hi
    rw [List.mem_range] at hi
    by_cases hf : temporalFlag values i
    · have hmem : i ∈ List.range' 1 (values.length - 2) := by
        rw [temporalFlag] at hf
        by_cases hint : 1 ≤ i ∧ i + 1 < values.length
        · rw [List.mem_range'_1]
          omega
        · rw [if_neg hint] at hf
          exact absurd hf (by simp)
      rw [if_pos ⟨hmem, hf⟩, if_pos hf]
    · rw [if_neg (fun h => hf h.2), if_neg hf]
  · intro values o₁ o₂ hperm
    rw [temporalStageOrder_eq, temporalStageOrder_eq]
    apply List.map_congr_left
    intro i _
    simp only [hperm.mem_iff]

/-- Witness for C10 at a concrete group snapshot. -/
theorem temporal_stage_snapshot_witness :
    temporalStage [0, 100, 0, 0]
      = (List.range (4 : ℕ)).map (fun i =>
          if temporalFlag [0, 100, 0, 0] i then none
          else some (List.getD [0, 100, 0, 0] i 0)) :=
  temporal_stage_snapshot.1 [0, 100, 0, 0]
    (by norm_num [popVar, meanQ])

end RealTimeIBIBP
